import Mathlib

/-!
Verification of `src/mrng_to_rdp.py` (mRemoteNG → macOS RDP profile converter).

Shallow embedding conventions:

* A Python `dict[str, str]` is modelled as `Props`, an association list
  `List (String × String)` with first-match lookup (`Props.get?`) and
  replace-first-or-append assignment (`Props.insert`), which matches the
  observable behaviour of `dict.get` / `d[k] = v` (insertion order kept,
  keys unique as long as all writes go through `insert`).
* An XML element (`xml.etree.ElementTree.Element`) is modelled as `Node`:
  its attribute dictionary plus its list of child elements.  The converter
  only ever iterates `node.findall("Node")` (the `Node`-tagged children),
  so `Node.children` models exactly that child list, in document order.
* The on-disk target file of `update_or_write` is modelled as
  `Option (List String)`: `none` for a missing file, `some lines` for an
  existing file read with `splitlines()`; writing `"\n".join(lines)` and
  re-reading round-trips through this representation, so file content is
  identified with its line sequence.
* The module-level `interactive_creds` dictionary is modelled as the
  `Creds` structure, passed explicitly; a Python value that is `None` or a
  string is an `Option String`, and Python truthiness of such a value is
  `pythonTruthy`.
-/

namespace MrngToRdp

/-- Model of `dict[str, str]` as an insertion-ordered association list. -/
abbrev Props := List (String × String)

namespace Props

/-- Lookup `d.get(k)` / `d[k]`: first (and, with unique keys, only) binding of `k`. -/
def get? : Props → String → Option String
  | [], _ => none
  | (k, v) :: rest, key => if k = key then some v else get? rest key

/-- Assignment `d[k] = v`: replace the first binding of `k`, or append a new one. -/
def insert : Props → String → String → Props
  | [], k, v => [(k, v)]
  | (k0, v0) :: rest, k, v =>
      if k0 = k then (k, v) :: rest else (k0, v0) :: insert rest k v

end Props

/-- An XML element of the mRemoteNG export: its attribute dictionary
(`node.attrib`) and its `Node`-tagged children (`node.findall("Node")`),
in document order. -/
inductive Node : Type where
  | mk (attrib : Props) (children : List Node)

/-- Accessor for `node.attrib`. -/
def Node.attrib : Node → Props
  | .mk a _ => a

/-- Accessor for `node.findall("Node")`: the child elements, in document order. -/
def Node.children : Node → List Node
  | .mk _ cs => cs

/-- The module-level `FIELDS` list. -/
def FIELDS : List String :=
  ["Hostname", "Username", "Domain", "Port",
   "RDGatewayHostname", "RDGatewayUsername",
   "ConnectToConsole"]

/-- One iteration of the `for field in FIELDS` loop of `resolve_props`:
if `Inherit<field>` is not the literal `"true"` and the field is present
on the node, assign the node's own value into the accumulating dict. -/
def resolveField (node : Node) (props : Props) (field : String) : Props :=
  match Props.get? node.attrib field,
        ((Props.get? node.attrib ("Inherit" ++ field)).getD "false") == "true" with
  | some v, false => Props.insert props field v
  | _, _ => props

/-- Model of `resolve_props(node, inherited)`: start from a copy of `inherited` and
run the per-field loop. -/
def resolve_props (node : Node) (inherited : Props) : Props :=
  FIELDS.foldl (resolveField node) inherited

/-- The condition under which `resolve_props` overrides a field with the
node's own value: the inherit flag is absent or not exactly `"true"`, and
the field is directly present on the node. -/
def overrides (node : Node) (field : String) : Prop :=
  (Props.get? node.attrib ("Inherit" ++ field)).getD "false" ≠ "true"
    ∧ (Props.get? node.attrib field).isSome = true

instance (node : Node) (field : String) : Decidable (overrides node field) := by
  unfold overrides; infer_instance

/-- Model of `resolve_props` at dict-store granularity.  The pair holds the values
of the two dicts (`inherited`, `props`) that are live during the loop of
`resolve_props`; each loop iteration's only write is the
`props[field] = node.attrib[field]` assignment, which acts on the second
component. -/
def resolveFieldState (node : Node) (st : Props × Props) (field : String) : Props × Props :=
  match Props.get? node.attrib field,
        ((Props.get? node.attrib ("Inherit" ++ field)).getD "false") == "true" with
  | some v, false => (st.1, Props.insert st.2 field v)
  | _, _ => st

/-- The store-level run of `resolve_props`: `props = inherited.copy()`
initialises the pair, then the field loop runs. -/
def resolve_props_state (node : Node) (inherited : Props) : Props × Props :=
  FIELDS.foldl (resolveFieldState node) (inherited, inherited)

/-- The module-level `interactive_creds` dictionary: `None` until
`prompt_credentials` runs, strings afterwards. -/
structure Creds where
  sys_user : Option String
  sys_pass : Option String
  gw_user : Option String
  gw_pass : Option String

/-- Python truthiness of a `None`-or-string value: `None` and `""` are
falsy, every other string is truthy. -/
def pythonTruthy (o : Option String) : Bool := o.getD "" != ""

/-- The run without `--prompt`: `interactive_creds` keeps its initial
`None` entries. -/
def noCreds : Creds := ⟨none, none, none, none⟩

/-- Model of `system_username(props)`. -/
def system_username (creds : Creds) (props : Props) : String :=
  if pythonTruthy creds.sys_user then creds.sys_user.getD ""
  else
    let user := (Props.get? props "Username").getD ""
    let domain := (Props.get? props "Domain").getD ""
    if user != "" && domain != "" then domain ++ "\\" ++ user else user

/-- Model of `gateway_username(props)`. -/
def gateway_username (creds : Creds) (props : Props) : String :=
  if pythonTruthy creds.gw_user then creds.gw_user.getD ""
  else (Props.get? props "RDGatewayUsername").getD ""

/-- Model of `build_rdp_lines(props)`: returns `(lines, host, user, gw_host or "none")`. -/
def build_rdp_lines (creds : Creds) (props : Props) :
    List String × String × String × String :=
  let host0 := (Props.get? props "Hostname").getD ""
  let port := (Props.get? props "Port").getD "3389"
  let host := if host0 != "" && port != "3389" then host0 ++ ":" ++ port else host0
  let user := system_username creds props
  let gw_user := gateway_username creds props
  let gw_host := Props.get? props "RDGatewayHostname"
  let lines :=
    ["; Generated from mRemoteNG",
     "; Credentials stored in macOS Keychain",
     "full address:s:" ++ host,
     "username:s:" ++ user,
     "administrative session:i:" ++
       (if Props.get? props "ConnectToConsole" == some "true" then "1" else "0")]
    ++ (if pythonTruthy gw_host then
          ["gatewayhostname:s:" ++ gw_host.getD "", "gatewayusagemethod:i:1"]
        else [])
    ++ (if gw_user != "" then ["gatewayusername:s:" ++ gw_user] else [])
  (lines, host, user, if pythonTruthy gw_host then gw_host.getD "" else "none")

/-- The characters of `line` up to (excluding) the first `':'`; the whole
line when it has no `':'`. -/
def keyData : List Char → List Char
  | [] => []
  | c :: cs => if c = ':' then [] else c :: keyData cs

/-- Model of `line.split(":", 1)[0] + ":"`: the key prefix of a rendered line. -/
def keyOf (line : String) : String := String.mk (keyData line.data) ++ ":"

/-- Model of `s.startswith(pre)`. -/
def startsWith (s pre : String) : Bool := pre.data.isPrefixOf s.data

/-- The nested `replace(prefix, value)` of `update_or_write`: overwrite the
first existing line that starts with the key prefix, append when none does. -/
def replace (existing : List String) (pre value : String) : List String :=
  match existing with
  | [] => [value]
  | line :: rest =>
      if startsWith line pre then value :: rest
      else line :: replace rest pre value

/-- Model of `update_or_write(outfile, new_lines)`: result of the target file's line
sequence.  A missing file (`none`) receives `new_lines` verbatim; an
existing file is merged line by line, in order. -/
def update_or_write (file : Option (List String)) (new_lines : List String) : List String :=
  match file with
  | some existing => new_lines.foldl (fun ex line => replace ex (keyOf line) line) existing
  | none => new_lines

/-- Index of the first element satisfying `p`, transparently recursive. -/
def findIdxS (p : String → Bool) : List String → Option Nat
  | [] => none
  | x :: xs => if p x then some 0 else (findIdxS p xs).map (· + 1)

/-- Modelled from the spec: the repository is described as two full
variants of the same tool, and the variant carrying the
`--default-gateway HOST` CLI option (§4.2 GatewayDefaulter) is not under
`src/`.  Following the spec's words: "If `RDGatewayHostname` is absent or
empty in the set AND a fallback was configured for the run, set it to the
fallback." -/
def applyDefault (effectiveSet : Props) (fallbackGatewayHost : Option String) : Props :=
  match fallbackGatewayHost with
  | none => effectiveSet
  | some fb =>
      if (Props.get? effectiveSet "RDGatewayHostname").getD "" = "" then
        Props.insert effectiveSet "RDGatewayHostname" fb
      else effectiveSet

/-- Test `node.attrib.get("Type") == "Container"`. -/
def isContainer (n : Node) : Bool := Props.get? n.attrib "Type" == some "Container"

/-- Test `node.attrib.get("Type") == "Connection"`. -/
def isConnection (n : Node) : Bool := Props.get? n.attrib "Type" == some "Connection"

/-- Name `node.attrib.get("Name", "connection")`: the output name; each visit of
a connection writes `<name>.rdp` and appends one summary record. -/
def nameOf (n : Node) : String := (Props.get? n.attrib "Name").getD "connection"

/-- All elements below the nodes of a forest, in document (pre-)order:
`root.findall(".//Node")` returns `descendantsL root.children`. -/
def descendantsL : List Node → List Node
  | [] => []
  | Node.mk a cs :: rest => Node.mk a cs :: (descendantsL cs ++ descendantsL rest)

/-- Model of `root.findall(".//Node")`: every element below `root`, in document order. -/
def descendants (n : Node) : List Node := descendantsL n.children

/-- A node together with everything below it. -/
def subtreeNodes (n : Node) : List Node := n :: descendants n

/-- The names of the connections visited by `walk` over a forest, in
traversal order: `walk` checks each node's own `Type`, then recurses into
all of its `Node` children.  Each listed name is one `write_connection`
call: one `update_or_write` on `<name>.rdp` and one appended summary
record. -/
def walkNamesL : List Node → List String
  | [] => []
  | Node.mk a cs :: rest =>
      ((if Props.get? a "Type" == some "Connection"
        then [(Props.get? a "Name").getD "connection"] else [])
        ++ walkNamesL cs)
      ++ walkNamesL rest

/-- The connection names visited by `walk(node, inherited, outdir)`, in
traversal order (the visits do not depend on `inherited`). -/
def walkNames (n : Node) : List String :=
  (if isConnection n then [nameOf n] else []) ++ walkNamesL n.children

/-- The `main` loop: an independent `walk` is started from every
`Container`-typed element anywhere in the document
(`root.findall(".//Node")` filtered on `Type == "Container"`); this lists
every connection name visited over the whole run, in order. -/
def mainNames (root : Node) : List String :=
  ((descendants root).filter isContainer).flatMap walkNames

/-- Structural induction for the nested `Node` tree: to prove a property of
every node it suffices to prove it of a node given it for all children. -/
def Node.recMem {motive : Node → Prop}
    (step : ∀ a cs, (∀ c ∈ cs, motive c) → motive (Node.mk a cs)) : ∀ n, motive n
  | Node.mk a cs => step a cs (fun c hc => Node.recMem step c)
termination_by n => sizeOf n
decreasing_by
  have h1 := List.sizeOf_lt_of_mem hc
  simp only [Node.mk.sizeOf_spec]
  omega

/-- A sample document for the nested-container scenario: a connection
inside a container inside another container. -/
def connW : Node := .mk [("Type", "Connection"), ("Name", "srv")] []

/-- The inner container of the sample document. -/
def innerW : Node := .mk [("Type", "Container"), ("Name", "inner")] [connW]

/-- The outer container of the sample document. -/
def outerW : Node := .mk [("Type", "Container"), ("Name", "outer")] [innerW]

/-- The root element of the sample document. -/
def rootW : Node := .mk [("Name", "Connections")] [outerW]

/-!  Theorems. -/

@[simp] theorem Node.attrib_mk (a : Props) (cs : List Node) :
    (Node.mk a cs).attrib = a := rfl

@[simp] theorem Node.children_mk (a : Props) (cs : List Node) :
    (Node.mk a cs).children = cs := rfl

namespace Props

@[simp] theorem get?_nil (key : String) : get? [] key = none := rfl

theorem get?_cons (k v : String) (rest : Props) (key : String) :
    get? ((k, v) :: rest) key = if k = key then some v else get? rest key := rfl

/-- Lookup after assignment: the assigned key reads back the new value,
every other key is unaffected. -/
theorem get?_insert (d : Props) (k v q : String) :
    get? (insert d k v) q = if q = k then some v else get? d q := by
  induction d with
  | nil =>
      simp only [insert, get?]
      by_cases h : q = k
      · rw [if_pos h.symm, if_pos h]
      · rw [if_neg (fun hk => h hk.symm), if_neg h]
  | cons hd tl ih =>
      obtain ⟨k0, v0⟩ := hd
      simp only [insert]
      by_cases h0 : k0 = k
      · subst h0
        rw [if_pos rfl]
        simp only [get?]
        by_cases h : q = k0
        · subst h; simp
        · rw [if_neg (fun hk => h hk.symm), if_neg h, if_neg (fun hk => h hk.symm)]
      · rw [if_neg h0]
        simp only [get?]
        rcases eq_or_ne k0 q with hk0q | hk0q
        · have hqk : ¬q = k := fun hqk => h0 (hk0q.trans hqk)
          rw [if_pos hk0q, if_neg hqk, if_pos hk0q]
        · rw [if_neg hk0q, ih, if_neg hk0q]

end Props

theorem resolveField_get_same (node : Node) (props : Props) (field : String) :
    Props.get? (resolveField node props field) field =
      if overrides node field then Props.get? node.attrib field
      else Props.get? props field := by
  cases hv : Props.get? node.attrib field with
  | none =>
      have hno : ¬overrides node field := by simp [overrides, hv]
      rw [if_neg hno]
      cases hflag : ((Props.get? node.attrib ("Inherit" ++ field)).getD "false") == "true" <;>
        simp [resolveField, hv, hflag]
  | some v =>
      cases hflag : ((Props.get? node.attrib ("Inherit" ++ field)).getD "false") == "true" with
      | false =>
          have hne : (Props.get? node.attrib ("Inherit" ++ field)).getD "false" ≠ "true" := by
            intro h; rw [h] at hflag; simp at hflag
          rw [if_pos ⟨hne, by simp [hv]⟩]
          simp [resolveField, hv, hflag, Props.get?_insert]
      | true =>
          have heq : (Props.get? node.attrib ("Inherit" ++ field)).getD "false" = "true" := by
            simpa using hflag
          have hno : ¬overrides node field := by simp [overrides, heq]
          rw [if_neg hno]
          simp [resolveField, hv, hflag]

theorem resolveField_get_other (node : Node) (props : Props) (field q : String)
    (h : q ≠ field) :
    Props.get? (resolveField node props field) q = Props.get? props q := by
  cases hv : Props.get? node.attrib field with
  | none =>
      cases hflag : ((Props.get? node.attrib ("Inherit" ++ field)).getD "false") == "true" <;>
        simp [resolveField, hv, hflag]
  | some v =>
      cases hflag : ((Props.get? node.attrib ("Inherit" ++ field)).getD "false") == "true" <;>
        simp [resolveField, hv, hflag, Props.get?_insert, h]

theorem get_foldl_not_mem (node : Node) (fs : List String) (acc : Props) (q : String)
    (h : q ∉ fs) :
    Props.get? (fs.foldl (resolveField node) acc) q = Props.get? acc q := by
  induction fs generalizing acc with
  | nil => rfl
  | cons f fs ih =>
      have hq : q ≠ f := fun hqf => h (hqf ▸ List.mem_cons_self f fs)
      have hrest : q ∉ fs := fun hm => h (List.mem_cons_of_mem f hm)
      rw [List.foldl_cons, ih _ hrest, resolveField_get_other node acc f q hq]

theorem get_foldl_mem (node : Node) (fs : List String) (acc : Props) (f : String)
    (hmem : f ∈ fs) (hnd : fs.Nodup) :
    Props.get? (fs.foldl (resolveField node) acc) f =
      if overrides node f then Props.get? node.attrib f else Props.get? acc f := by
  induction fs generalizing acc with
  | nil => cases hmem
  | cons g gs ih =>
      rcases List.mem_cons.mp hmem with hfg | hfs
      · subst hfg
        have hnot : f ∉ gs := (List.nodup_cons.mp hnd).1
        rw [List.foldl_cons, get_foldl_not_mem node gs _ f hnot,
          resolveField_get_same node acc f]
      · have hgf : f ≠ g := by
          intro h; exact (List.nodup_cons.mp hnd).1 (h ▸ hfs)
        rw [List.foldl_cons, ih _ hfs (List.nodup_cons.mp hnd).2,
          resolveField_get_other node acc g f hgf]

/-- C2: for every node, inherited set and recognized field, `resolve_props`
returns the node's own value when the field's inherit flag is absent or not
exactly `"true"` and the field is directly present on the node, and the
inherited value (absent if absent) otherwise. -/
theorem C2_resolve_props_fields (node : Node) (inherited : Props) (field : String)
    (hf : field ∈ FIELDS) :
    Props.get? (resolve_props node inherited) field =
      if overrides node field then Props.get? node.attrib field
      else Props.get? inherited field :=
  get_foldl_mem node FIELDS inherited field hf (by decide)

theorem C2_witness :
    ("Hostname" ∈ FIELDS)
    ∧ Props.get? (resolve_props (Node.mk [("Hostname", "own"), ("InheritHostname", "false")] [])
          [("Hostname", "inh")]) "Hostname" =
        (if overrides (Node.mk [("Hostname", "own"), ("InheritHostname", "false")] []) "Hostname"
         then Props.get? (Node.mk [("Hostname", "own"), ("InheritHostname", "false")] []).attrib
             "Hostname"
         else Props.get? [("Hostname", "inh")] "Hostname") :=
  ⟨by decide, C2_resolve_props_fields _ _ _ (by decide)⟩

/-- C1: the claimed idempotence of `update_or_write` fails on the code.
`build_rdp_lines` always emits the two leading comment lines, which contain
no `':'`; their computed key (the whole line followed by `":"`) matches no
existing line, so a second run with identical lines appends both comments
again instead of leaving the file unchanged.  Shown here at the rendered
lines of the empty attribute set: write to a missing file, then merge the
same lines, and the content differs. -/
theorem C1_update_or_write_not_idempotent :
    update_or_write (some (update_or_write none (build_rdp_lines noCreds []).1))
        (build_rdp_lines noCreds []).1
      ≠ update_or_write none (build_rdp_lines noCreds []).1 := by decide

/-- C3 (gateway defaulter, modelled from the spec): with a fallback host
configured for the run, a resolved set whose `RDGatewayHostname` is absent
or empty receives the fallback, while an explicit non-empty resolved
gateway keeps its own value. -/
theorem C3_gateway_default (s : Props) (fb : String) :
    Props.get? (applyDefault s (some fb)) "RDGatewayHostname" =
      if (Props.get? s "RDGatewayHostname").getD "" = "" then some fb
      else Props.get? s "RDGatewayHostname" := by
  by_cases h : (Props.get? s "RDGatewayHostname").getD "" = ""
  · simp [applyDefault, h, Props.get?_insert]
  · simp [applyDefault, h]

theorem foldl_state (node : Node) (fs : List String) (st : Props × Props) :
    (fs.foldl (resolveFieldState node) st).1 = st.1
    ∧ (fs.foldl (resolveFieldState node) st).2 = fs.foldl (resolveField node) st.2 := by
  induction fs generalizing st with
  | nil => exact ⟨rfl, rfl⟩
  | cons f fs ih =>
      have hstep1 : (resolveFieldState node st f).1 = st.1 := by
        unfold resolveFieldState
        cases hv : Props.get? node.attrib f <;>
          cases hflag : ((Props.get? node.attrib ("Inherit" ++ f)).getD "false") == "true" <;>
          simp [hv, hflag]
      have hstep2 : (resolveFieldState node st f).2 = resolveField node st.2 f := by
        unfold resolveFieldState resolveField
        cases hv : Props.get? node.attrib f <;>
          cases hflag : ((Props.get? node.attrib ("Inherit" ++ f)).getD "false") == "true" <;>
          simp [hv, hflag]
      rw [List.foldl_cons, List.foldl_cons]
      exact ⟨by rw [(ih _).1, hstep1], by rw [(ih _).2, hstep2]⟩

/-- C7: at dict-store granularity, running `resolve_props` leaves the
`inherited` dict unchanged — its only writes target the fresh copy made by
`inherited.copy()` — and the returned mapping is the new dict; hence the
parent's resolved set, passed unchanged by `walk` to every child, is the
same for each sibling regardless of what earlier siblings overrode. -/
theorem C7_resolve_props_no_mutation (node : Node) (inherited : Props) :
    (resolve_props_state node inherited).1 = inherited
    ∧ (resolve_props_state node inherited).2 = resolve_props node inherited :=
  ⟨(foldl_state node FIELDS (inherited, inherited)).1,
   (foldl_state node FIELDS (inherited, inherited)).2⟩

theorem replace_getElem?_untouched (ex : List String) (pre v l : String) (i : Nat)
    (hi : ex[i]? = some l) (h : startsWith l pre = false) :
    (replace ex pre v)[i]? = some l := by
  induction ex generalizing i with
  | nil => simp at hi
  | cons x xs ih =>
      cases hx : startsWith x pre with
      | true =>
          cases i with
          | zero =>
              simp only [List.getElem?_cons_zero, Option.some.injEq] at hi
              rw [hi] at hx
              rw [hx] at h
              cases h
          | succ n =>
              simp only [replace, hx, if_true]
              simp only [List.getElem?_cons_succ] at hi ⊢
              exact hi
      | false =>
          cases i with
          | zero =>
              simp only [replace, hx]
              simpa using hi
          | succ n =>
              simp only [replace, hx, Bool.false_eq_true, if_false]
              simp only [List.getElem?_cons_succ] at hi ⊢
              exact ih n hi

/-- C4: a merge never touches an existing line whose start matches no new
line's key prefix: the line is still present, unmodified, at its original
position after `update_or_write`. -/
theorem C4_merge_preserves_foreign (existing new_lines : List String) (i : Nat) (l : String)
    (hi : existing[i]? = some l)
    (h : ∀ n ∈ new_lines, startsWith l (keyOf n) = false) :
    (update_or_write (some existing) new_lines)[i]? = some l := by
  induction new_lines generalizing existing with
  | nil => exact hi
  | cons n rest ih =>
      have h1 : (replace existing (keyOf n) n)[i]? = some l :=
        replace_getElem?_untouched existing (keyOf n) n l i hi (h n (List.mem_cons_self n rest))
      have h2 := ih (replace existing (keyOf n) n) h1
        (fun m hm => h m (List.mem_cons_of_mem n hm))
      simpa [update_or_write, List.foldl_cons] using h2

theorem C4_witness :
    ((["custom line A", "username:s:alice"] : List String)[0]? = some "custom line A")
    ∧ (∀ n ∈ (["username:s:bob"] : List String),
        startsWith "custom line A" (keyOf n) = false)
    ∧ (update_or_write (some ["custom line A", "username:s:alice"])
        ["username:s:bob"])[0]? = some "custom line A" :=
  ⟨by decide, by decide,
   C4_merge_preserves_foreign ["custom line A", "username:s:alice"] ["username:s:bob"]
     0 "custom line A" (by decide) (by decide)⟩

theorem replace_eq_findIdx (ex : List String) (pre v : String) :
    replace ex pre v =
      match findIdxS (fun s => startsWith s pre) ex with
      | some j => ex.set j v
      | none => ex ++ [v] := by
  induction ex with
  | nil => rfl
  | cons x xs ih =>
      cases hx : startsWith x pre with
      | true => simp [replace, findIdxS, hx]
      | false =>
          simp only [replace, findIdxS, hx, if_false, Bool.false_eq_true]
          rw [ih]
          cases hf : findIdxS (fun s => startsWith s pre) xs <;>
            simp [hf, List.set_cons_succ]

/-- C5: each new line is merged by replacing, in place, the first existing
line whose start matches the new line's key prefix — the replacement sits
at the matched line's original position and every other line is unchanged
(`List.set`) — and is appended at the end when no existing line matches. -/
theorem C5_merge_in_place (ex : List String) (l : String) (rest : List String) :
    update_or_write (some ex) (l :: rest) =
      update_or_write
        (some (match findIdxS (fun s => startsWith s (keyOf l)) ex with
               | some j => ex.set j l
               | none => ex ++ [l])) rest := by
  simp only [update_or_write, List.foldl_cons, replace_eq_findIdx]

theorem ne_append_right (s p x : String) (i : Nat) (h1 : i < p.data.length)
    (h3 : s.data[i]? ≠ p.data[i]?) : s ≠ p ++ x := by
  intro he
  apply h3
  rw [he, String.data_append, List.getElem?_append, if_pos h1]

theorem append_ne_append (p x q y : String) (i : Nat) (h1 : i < p.data.length)
    (h2 : i < q.data.length) (h3 : p.data[i]? ≠ q.data[i]?) : p ++ x ≠ q ++ y := by
  intro he
  apply h3
  have hd := congrArg String.data he
  rw [String.data_append, String.data_append] at hd
  calc p.data[i]? = (p.data ++ x.data)[i]? := by rw [List.getElem?_append, if_pos h1]
    _ = (q.data ++ y.data)[i]? := by rw [hd]
    _ = q.data[i]? := by rw [List.getElem?_append, if_pos h2]

/-- C6: with a non-empty `Hostname`, the rendered full-address value gets a
`:<Port>` suffix exactly when `Port` is present and differs from the
literal `"3389"`; an absent `Port` or the default `"3389"` renders the bare
hostname. -/
theorem C6_full_address_port (creds : Creds) (props : Props) (h : String)
    (hh : Props.get? props "Hostname" = some h) (hne : h ≠ "") :
    (build_rdp_lines creds props).1[2]? =
      some ("full address:s:" ++
        (match Props.get? props "Port" with
         | some p => if p = "3389" then h else h ++ ":" ++ p
         | none => h)) := by
  have hb : (h != "") = true := bne_iff_ne.mpr hne
  cases hp : Props.get? props "Port" with
  | none => simp [build_rdp_lines, hh, hp]
  | some p =>
      by_cases hp3 : p = "3389"
      · simp [build_rdp_lines, hh, hp, hp3, hb]
      · have hpb : (p != "3389") = true := bne_iff_ne.mpr hp3
        simp [build_rdp_lines, hh, hp, hp3, hb, hpb]

theorem C6_witness :
    Props.get? [("Hostname", "10.0.0.5"), ("Port", "3390")] "Hostname" = some "10.0.0.5"
    ∧ ("10.0.0.5" : String) ≠ ""
    ∧ (build_rdp_lines noCreds [("Hostname", "10.0.0.5"), ("Port", "3390")]).1[2]? =
        some ("full address:s:" ++
          (match Props.get? [("Hostname", "10.0.0.5"), ("Port", "3390")] "Port" with
           | some p => if p = "3389" then "10.0.0.5" else "10.0.0.5" ++ ":" ++ p
           | none => "10.0.0.5")) :=
  ⟨by decide, by decide, C6_full_address_port noCreds _ "10.0.0.5" (by decide) (by decide)⟩

theorem flag_not_mem_rest (host user cc U : String) :
    "gatewayusagemethod:i:1" ∉
      (["; Generated from mRemoteNG", "; Credentials stored in macOS Keychain",
        "full address:s:" ++ host, "username:s:" ++ user,
        "administrative session:i:" ++ cc]
       ++ (if (U != "") = true then ["gatewayusername:s:" ++ U] else [])) := by
  intro hmem
  rcases List.mem_append.mp hmem with hmem | hmem
  · simp only [List.mem_cons, List.not_mem_nil, or_false] at hmem
    rcases hmem with h | h | h | h | h
    · exact absurd h (by decide)
    · exact absurd h (by decide)
    · exact ne_append_right _ _ _ 0 (by decide) (by decide) h
    · exact ne_append_right _ _ _ 0 (by decide) (by decide) h
    · exact ne_append_right _ _ _ 0 (by decide) (by decide) h
  · by_cases hU : (U != "") = true
    · rw [if_pos hU] at hmem
      simp only [List.mem_cons, List.not_mem_nil, or_false] at hmem
      exact ne_append_right _ _ _ 9 (by decide) (by decide) hmem
    · rw [if_neg hU] at hmem
      cases hmem

theorem guline_not_mem_rest (host user cc G U : String) :
    ("gatewayusername:s:" ++ U) ∉
      (["; Generated from mRemoteNG", "; Credentials stored in macOS Keychain",
        "full address:s:" ++ host, "username:s:" ++ user,
        "administrative session:i:" ++ cc]
       ++ (if (G != "") = true then
             ["gatewayhostname:s:" ++ G, "gatewayusagemethod:i:1"] else [])) := by
  intro hmem
  rcases List.mem_append.mp hmem with hmem | hmem
  · simp only [List.mem_cons, List.not_mem_nil, or_false] at hmem
    rcases hmem with h | h | h | h | h
    · exact (ne_append_right _ _ _ 0 (by decide) (by decide)).symm h
    · exact (ne_append_right _ _ _ 0 (by decide) (by decide)).symm h
    · exact append_ne_append _ _ _ _ 0 (by decide) (by decide) (by decide) h
    · exact append_ne_append _ _ _ _ 0 (by decide) (by decide) (by decide) h
    · exact append_ne_append _ _ _ _ 0 (by decide) (by decide) (by decide) h
  · by_cases hG : (G != "") = true
    · rw [if_pos hG] at hmem
      simp only [List.mem_cons, List.not_mem_nil, or_false] at hmem
      rcases hmem with h | h
      · exact append_ne_append _ _ _ _ 7 (by decide) (by decide) (by decide) h
      · exact (ne_append_right _ _ _ 9 (by decide) (by decide)).symm h
    · rw [if_neg hG] at hmem
      cases hmem

theorem gateway_mem_shape (host user cc G U : String) (lines : List String)
    (hl : lines =
      ["; Generated from mRemoteNG", "; Credentials stored in macOS Keychain",
       "full address:s:" ++ host, "username:s:" ++ user,
       "administrative session:i:" ++ cc]
      ++ (if (G != "") = true then
            ["gatewayhostname:s:" ++ G, "gatewayusagemethod:i:1"] else [])
      ++ (if (U != "") = true then ["gatewayusername:s:" ++ U] else [])) :
    ((("gatewayhostname:s:" ++ G) ∈ lines ∧ "gatewayusagemethod:i:1" ∈ lines) ↔ G ≠ "")
    ∧ (("gatewayusername:s:" ++ U) ∈ lines ↔ U ≠ "") := by
  subst hl
  constructor
  · constructor
    · rintro ⟨-, hmem⟩ hGe
      subst hGe
      rw [List.append_assoc] at hmem
      simp only [bne_self_eq_false, Bool.false_eq_true, if_false, List.nil_append] at hmem
      exact flag_not_mem_rest host user cc U hmem
    · intro hGne
      have hGb : (G != "") = true := bne_iff_ne.mpr hGne
      rw [if_pos hGb]
      constructor <;> simp
  · constructor
    · intro hmem hUe
      subst hUe
      simp only [bne_self_eq_false, Bool.false_eq_true, if_false, List.append_nil] at hmem
      exact guline_not_mem_rest host user cc G "" hmem
    · intro hUne
      have hUb : (U != "") = true := bne_iff_ne.mpr hUne
      rw [if_pos hUb]
      simp

/-- C8: the rendered lines contain the gateway-host line together with the
fixed `gatewayusagemethod:i:1` flag line if and only if the resolved
gateway host is non-empty, and contain the gateway-username line if and
only if the resolved gateway username is non-empty, independently of the
gateway-host lines. -/
theorem C8_gateway_lines (creds : Creds) (props : Props) :
    ((("gatewayhostname:s:" ++ (Props.get? props "RDGatewayHostname").getD "")
          ∈ (build_rdp_lines creds props).1
        ∧ "gatewayusagemethod:i:1" ∈ (build_rdp_lines creds props).1)
      ↔ (Props.get? props "RDGatewayHostname").getD "" ≠ "")
    ∧ (("gatewayusername:s:" ++ gateway_username creds props)
          ∈ (build_rdp_lines creds props).1
      ↔ gateway_username creds props ≠ "") :=
  gateway_mem_shape _ (system_username creds props) _
    ((Props.get? props "RDGatewayHostname").getD "") (gateway_username creds props)
    (build_rdp_lines creds props).1 rfl

/-- C9: when interactive capture made the system username non-empty, the
rendered `username:s:` line carries that captured value verbatim for every
connection (the node's `Username`/`Domain` attributes cannot influence it);
likewise a non-empty captured gateway username replaces the resolved
`RDGatewayUsername` in the rendered output. -/
theorem C9_captured_credentials (creds : Creds) (props : Props) :
    (pythonTruthy creds.sys_user = true →
       system_username creds props = creds.sys_user.getD ""
         ∧ (build_rdp_lines creds props).1[3]? =
             some ("username:s:" ++ creds.sys_user.getD ""))
    ∧ (pythonTruthy creds.gw_user = true →
       gateway_username creds props = creds.gw_user.getD ""
         ∧ ("gatewayusername:s:" ++ creds.gw_user.getD "")
             ∈ (build_rdp_lines creds props).1) := by
  constructor
  · intro h
    have h1 : system_username creds props = creds.sys_user.getD "" := by
      simp [system_username, h]
    exact ⟨h1, by simp [build_rdp_lines, h1]⟩
  · intro h
    have h1 : gateway_username creds props = creds.gw_user.getD "" := by
      simp [gateway_username, h]
    have h2 : (gateway_username creds props != "") = true := by
      rw [h1]; simpa [pythonTruthy] using h
    refine ⟨h1, ?_⟩
    rw [← h1]
    simp [build_rdp_lines, h2]

theorem C9_witness :
    system_username ⟨some "CORP\\admin", none, some "gwadmin", none⟩
        [("Username", "alice"), ("Domain", "D")] = "CORP\\admin"
    ∧ (build_rdp_lines ⟨some "CORP\\admin", none, some "gwadmin", none⟩
        [("Username", "alice"), ("Domain", "D")]).1[3]? =
          some ("username:s:" ++ "CORP\\admin")
    ∧ gateway_username ⟨some "CORP\\admin", none, some "gwadmin", none⟩
        [("Username", "alice"), ("Domain", "D")] = "gwadmin"
    ∧ ("gatewayusername:s:" ++ "gwadmin")
        ∈ (build_rdp_lines ⟨some "CORP\\admin", none, some "gwadmin", none⟩
            [("Username", "alice"), ("Domain", "D")]).1 :=
  ⟨((C9_captured_credentials _ _).1 (by decide)).1,
   ((C9_captured_credentials _ _).1 (by decide)).2,
   ((C9_captured_credentials _ _).2 (by decide)).1,
   ((C9_captured_credentials _ _).2 (by decide)).2⟩

theorem descendantsL_cons (n : Node) (rest : List Node) :
    descendantsL (n :: rest) = n :: (descendants n ++ descendantsL rest) := by
  cases n with
  | mk a cs => simp [descendantsL, descendants]

theorem walkNamesL_cons (n : Node) (rest : List Node) :
    walkNamesL (n :: rest) = walkNames n ++ walkNamesL rest := by
  cases n with
  | mk a cs => simp [walkNamesL, walkNames, isConnection, nameOf]

theorem mem_descendantsL (cs : List Node) (o : Node) :
    o ∈ descendantsL cs ↔ ∃ c, c ∈ cs ∧ o ∈ subtreeNodes c := by
  induction cs with
  | nil => simp [descendantsL]
  | cons n rest ih =>
      rw [descendantsL_cons]
      constructor
      · intro h
        rcases List.mem_cons.mp h with he | hm
        · refine ⟨n, List.mem_cons_self n rest, ?_⟩
          rw [he]
          exact List.mem_cons_self n (descendants n)
        · rcases List.mem_append.mp hm with hd | hr
          · exact ⟨n, List.mem_cons_self n rest, List.mem_cons_of_mem n hd⟩
          · obtain ⟨c, hc, hsub⟩ := ih.mp hr
            exact ⟨c, List.mem_cons_of_mem n hc, hsub⟩
      · rintro ⟨c, hc, hsub⟩
        rcases List.mem_cons.mp hc with he | hm
        · subst he
          rcases List.mem_cons.mp hsub with he2 | hd
          · rw [he2]; exact List.mem_cons_self _ _
          · exact List.mem_cons_of_mem _ (List.mem_append_left _ hd)
        · exact List.mem_cons_of_mem _ (List.mem_append_right _ (ih.mpr ⟨c, hm, hsub⟩))

theorem descendantsL_infix_of (cs : List Node)
    (hcs : ∀ c ∈ cs, ∀ o ∈ descendants c,
      ∃ s t, descendants c = s ++ (o :: descendants o) ++ t) :
    ∀ o ∈ descendantsL cs, ∃ s t, descendantsL cs = s ++ (o :: descendants o) ++ t := by
  induction cs with
  | nil => intro o ho; rw [descendantsL] at ho; cases ho
  | cons n rest ih =>
      intro o ho
      rw [descendantsL_cons] at ho ⊢
      rcases List.mem_cons.mp ho with he | hm
      · refine ⟨[], descendantsL rest, ?_⟩
        rw [he]
        simp
      · rcases List.mem_append.mp hm with hd | hr
        · obtain ⟨s, t, hst⟩ := hcs n (List.mem_cons_self n rest) o hd
          refine ⟨n :: s, t ++ descendantsL rest, ?_⟩
          rw [hst]
          simp
        · obtain ⟨s, t, hst⟩ := ih (fun c hc => hcs c (List.mem_cons_of_mem n hc)) o hr
          refine ⟨n :: (descendants n ++ s), t, ?_⟩
          rw [hst]
          simp

theorem descendants_infix (n : Node) :
    ∀ o ∈ descendants n, ∃ s t, descendants n = s ++ (o :: descendants o) ++ t :=
  @Node.recMem
    (fun n => ∀ o ∈ descendants n, ∃ s t, descendants n = s ++ (o :: descendants o) ++ t)
    (fun _ cs ih => descendantsL_infix_of cs ih) n

theorem subtree_sub (n : Node) :
    ∀ c ∈ descendants n, ∀ x ∈ subtreeNodes c, x ∈ subtreeNodes n :=
  @Node.recMem
    (fun n => ∀ c ∈ descendants n, ∀ x ∈ subtreeNodes c, x ∈ subtreeNodes n)
    (fun a cs ih => by
      intro c hc x hx
      obtain ⟨c1, hc1, hcsub⟩ := (mem_descendantsL cs c).mp hc
      have hx1 : x ∈ subtreeNodes c1 := by
        rcases List.mem_cons.mp hcsub with he | hd
        · rw [← he]; exact hx
        · exact ih c1 hc1 c hd x hx
      have hxd : x ∈ descendantsL cs := (mem_descendantsL cs x).mpr ⟨c1, hc1, hx1⟩
      exact List.mem_cons_of_mem _ hxd) n

theorem mem_walkNamesL_of (cs : List Node) (c : Node) (hc : c ∈ cs) (x : String)
    (hx : x ∈ walkNames c) : x ∈ walkNamesL cs := by
  induction cs with
  | nil => cases hc
  | cons n rest ih =>
      rw [walkNamesL_cons]
      rcases List.mem_cons.mp hc with he | hm
      · exact List.mem_append_left _ (he ▸ hx)
      · exact List.mem_append_right _ (ih hm)

theorem nameOf_mem_walkNames (n : Node) :
    ∀ d ∈ subtreeNodes n, isConnection d = true → nameOf d ∈ walkNames n :=
  @Node.recMem
    (fun n => ∀ d ∈ subtreeNodes n, isConnection d = true → nameOf d ∈ walkNames n)
    (fun a cs ih => by
      intro d hd hconn
      rcases List.mem_cons.mp hd with he | hm
      · rw [he] at hconn ⊢
        simp [walkNames, hconn]
      · obtain ⟨c, hc, hsub⟩ := (mem_descendantsL cs d).mp hm
        have hx : nameOf d ∈ walkNames c := ih c hc d hsub hconn
        have hxl : nameOf d ∈ walkNamesL cs := mem_walkNamesL_of cs c hc _ hx
        simp only [walkNames]
        exact List.mem_append_right _ hxl) n

theorem count_flatMap_pos (l : List Node) (f : Node → List String) (b : Node) (x : String)
    (hb : b ∈ l) (hx : x ∈ f b) : 1 ≤ (l.flatMap f).count x :=
  List.count_pos_iff.mpr (List.mem_flatMap.mpr ⟨b, hb, hx⟩)

/-- C10: in a document with a `Container`-kind node nested below another
`Container`-kind node, each connection beneath the inner container is
processed more than once — once inside the walk started at the outer
container and once by the independent walk started at the inner container —
so its name (hence its target file write and its summary record) occurs at
least twice over the whole run. -/
theorem C10_nested_containers_duplicate (root o c d : Node)
    (ho : o ∈ descendants root) (hoT : isContainer o = true)
    (hc : c ∈ descendants o) (hcT : isContainer c = true)
    (hd : d ∈ subtreeNodes c) (hdT : isConnection d = true) :
    2 ≤ (mainNames root).count (nameOf d) := by
  obtain ⟨s, t, hst⟩ := descendants_infix root o ho
  have hdo : d ∈ subtreeNodes o := subtree_sub o c hc d hd
  have h1 : nameOf d ∈ walkNames o := nameOf_mem_walkNames o d hdo hdT
  have hcf : c ∈ (descendants o).filter isContainer := List.mem_filter.mpr ⟨hc, hcT⟩
  have h2 : nameOf d ∈ walkNames c := nameOf_mem_walkNames c d hd hdT
  have hcount2 : 1 ≤ (((descendants o).filter isContainer).flatMap walkNames).count (nameOf d) :=
    count_flatMap_pos _ walkNames c (nameOf d) hcf h2
  have hcount1 : 1 ≤ (walkNames o).count (nameOf d) := List.count_pos_iff.mpr h1
  unfold mainNames
  rw [hst, List.filter_append, List.filter_append,
    List.filter_cons_of_pos (by exact hoT),
    List.flatMap_append, List.flatMap_append, List.flatMap_cons,
    List.count_append, List.count_append, List.count_append]
  omega

theorem C10_witness : 2 ≤ (mainNames rootW).count "srv" :=
  C10_nested_containers_duplicate rootW outerW innerW connW
    (by simp [rootW, outerW, innerW, connW, descendants, descendantsL])
    (by decide)
    (by simp [outerW, innerW, connW, descendants, descendantsL])
    (by decide)
    (by simp [subtreeNodes, innerW, connW, descendants, descendantsL])
    (by decide)

end MrngToRdp
